import Mathlib

/-!
Verification of the segmented sieve of Eratosthenes (`src/bin/06.rs`).

The source provides three strategies computing primality of the odd
integers below `max` as a boolean buffer of length `max / 2`
(flag `i` stands for the integer `2*i+1`):

* `sieve_serial`  : direct serial sieving;
* `sieve_chunks`  : seed primes up to `ceil (sqrt max)` with the serial
  sieve, then sweep the remaining buffer in windows of `CHUNK_SIZE`;
* `sieve_parallel`: as `sieve_chunks`, each window dispatched to a
  parallel worker (rayon `par_chunks_mut`).

The embedding models the buffers as `List Bool`.  Rust index panics
(`sieve[0]`, `sieve[i]` out of bounds) are modelled by `Option`: a
function returns `none` exactly when the Rust code panics.  The
unbounded `for i in 1 ..` loop of `sieve_serial` is modelled with an
explicit fuel argument; fuel `max / 2` is provably sufficient because
the loop either breaks or hits the out-of-bounds panic before the index
passes the buffer length.  Machine integers (`usize`) are modelled as
`Nat`; no intermediate value of the algorithm can overflow for the
bounds the program handles, and all subtractions are guarded so that
truncated `Nat` subtraction agrees with the source.

The parallel strategy is modelled by an explicit, arbitrary completion
order of the per-window jobs: `sieve_parallelWith` takes a list `order`
of chunk indices and applies the window updates in that order to the
shared buffer.  For any permutation of the chunk indices the result is
proved equal to the chunked strategy, which is exactly the data-race
freedom / order independence the parallel decomposition relies on.

The seed bound `small_max = (max as f64).sqrt().ceil() as usize` is
modelled arithmetically as `ceilSqrt max`, the exact ceiling of the real
square root; `f64` square root is exactly this value for every bound the
program can allocate (`max / 2` booleans in memory forces `max` far
below `2^53`, where the correctly rounded `f64` computation coincides
with the exact one).
-/

/-- `clear_stride` loop body: starting at index `start`, set every
`stride`-th entry of `l` to `false`.  Structural recursion on `fuel`;
`fuel = l.length` is enough since each step advances `start` by
`stride ≥ 1`. -/
def clearStrideAux (fuel : Nat) (l : List Bool) (start stride : Nat) : List Bool :=
  match fuel with
  | 0 => l
  | fuel + 1 =>
    if stride = 0 ∨ l.length ≤ start then l
    else clearStrideAux fuel (l.set start false) (start + stride) stride

/-- `fn clear_stride(slice, from, stride)`: the `StrideMut` iterator over
`&mut slice[from..]` writes `false` at indices `from, from+stride, …`.
Rust would panic when `from > slice.len()`; the model leaves the list
unchanged there instead — both call sites are proved to stay strictly in
bounds (see `clear_stride_calls_in_bounds`), so that case is unreachable. -/
def clearStride (l : List Bool) (start stride : Nat) : List Bool :=
  clearStrideAux l.length l start stride

/-- The start of the stride in `update_chunk` when `p² < base`:
`((base + p - 1) / p | 1) * p` from the source. -/
def oddMultStart (base p : Nat) : Nat := ((base + p - 1) / p ||| 1) * p

/-- The unbounded `for i in 1 ..` loop body of `sieve_serial`.  At index
`i`: panic (`none`) when `sieve[i]` is out of bounds, break returning the
buffer when the flag is set and `p * p >= max`, otherwise clear the odd
multiples of `p = 2*i+1` from `p²` on and continue.  Structural recursion
on `fuel`; every lemma assumes `s.length < i + fuel`, which makes the
`fuel = 0` case unreachable before the loop exits. -/
def sieveLoopAux (max fuel : Nat) (s : List Bool) (i : Nat) : Option (List Bool) :=
  match fuel with
  | 0 => none
  | fuel + 1 =>
    if h : i < s.length then
      if s[i] then
        if max ≤ (2 * i + 1) * (2 * i + 1) then some s
        else
          sieveLoopAux max fuel
            (clearStride s ((2 * i + 1) * (2 * i + 1) / 2) (2 * i + 1)) (i + 1)
      else sieveLoopAux max fuel s (i + 1)
    else none

/-- `fn sieve_serial(max) -> Vec<bool>`: allocate `max / 2` flags, force
index 0 to `false` (panicking when the buffer is empty), then run the
scan loop from index 1.  `none` models the Rust panic. -/
def sieve_serial (max : Nat) : Option (List Bool) :=
  if max / 2 = 0 then none
  else sieveLoopAux max (max / 2) ((List.replicate (max / 2) true).set 0 false) 1

/-- Specification buffer: flag `j` holds exactly the primality of `2*j+1`. -/
def oddPrimes (max : Nat) : List Bool :=
  (List.range (max / 2)).map (fun j => decide (Nat.Prime (2 * j + 1)))

/-- Loop invariant of `sieve_serial` before visiting index `i`: a flag is
still set exactly when its value is 1-free and not yet struck by any
confirmed prime below `2*i+1`. -/
def sieveInv (max i : Nat) (s : List Bool) : Prop :=
  s.length = max / 2 ∧ ∀ j, j < s.length →
    (s[j]? = some true ↔
      (j ≠ 0 ∧ ∀ q, q < 2 * i + 1 → Nat.Prime q → q * q ≤ 2 * j + 1 → ¬ q ∣ (2 * j + 1)))

/-- `let pm = if pp < base { ((base + p - 1) / p | 1) * p } else { pp }`
from `update_chunk`: the starting value of the stride for prime `p` in a
window beginning at value `base`. -/
def chunkStart (base p : Nat) : Nat :=
  if p * p < base then oddMultStart base p else p * p

/-- The `for (i, &is_prime) in low.iter().enumerate()` loop of
`update_chunk`.  `maxv` is the window bound `base + chunk.len() * 2`,
computed once at entry.  Structural recursion on `fuel`; `fuel =
low.length` always suffices. -/
def updateLoopAux (low : List Bool) (base maxv fuel : Nat) (chunk : List Bool)
    (i : Nat) : List Bool :=
  match fuel with
  | 0 => chunk
  | fuel + 1 =>
    if h : i < low.length then
      if low[i] then
        if maxv ≤ (2 * i + 1) * (2 * i + 1) then chunk
        else if chunkStart base (2 * i + 1) < maxv then
          updateLoopAux low base maxv fuel
            (clearStride chunk ((chunkStart base (2 * i + 1) - base) / 2) (2 * i + 1))
            (i + 1)
        else updateLoopAux low base maxv fuel chunk (i + 1)
      else updateLoopAux low base maxv fuel chunk (i + 1)
    else chunk

/-- `fn update_chunk(low, chunk, base)`: strike the composites of one
window of consecutive odd values starting at `base`, using the already
sieved prefix `low`. -/
def update_chunk (low chunk : List Bool) (base : Nat) : List Bool :=
  updateLoopAux low base (base + chunk.length * 2) low.length chunk 0

/-- `const CHUNK_SIZE: usize = 10_000`. -/
def CHUNK_SIZE : Nat := 10000

/-- `const MAX: usize = 1_000_000`. -/
def MAX : Nat := 1000000

/-- `const NUM_PRIMES: usize = 78498`, the reference count of primes below `MAX`. -/
def NUM_PRIMES : Nat := 78498

/-- `(max as f64).sqrt().ceil() as usize`, modelled exactly:
the least `m` with `max ≤ m * m`. -/
def ceilSqrt (n : Nat) : Nat :=
  if Nat.sqrt n * Nat.sqrt n = n then Nat.sqrt n else Nat.sqrt n + 1

/-- `Vec::resize(n, true)`: truncate or extend with `true` to length `n`. -/
def resize (l : List Bool) (n : Nat) : List Bool :=
  l.take n ++ List.replicate (n - l.length) true

/-- The `high.chunks_mut(c).enumerate()` loop of `sieve_chunks`: process
the windows left to right; `start` is the absolute buffer index where the
remaining suffix begins, so the window base value is `2*start+1`
(the source computes `base = i * 2 + 1` with
`i = small_max / 2 + chunk_index * CHUNK_SIZE`).  Structural on `fuel`;
`fuel = high.length` suffices since `c ≥ 1`. -/
def runChunksAux (low : List Bool) (c fuel start : Nat) (high : List Bool) : List Bool :=
  match fuel with
  | 0 => high
  | fuel + 1 =>
    if c = 0 ∨ high.length = 0 then high
    else
      update_chunk low (high.take c) (2 * start + 1) ++
        runChunksAux low c fuel (start + c) (high.drop c)

def runChunks (low : List Bool) (c start : Nat) (high : List Bool) : List Bool :=
  runChunksAux low c high.length start high

/-- `fn sieve_chunks(max) -> Vec<bool>` with an explicit window size `c`
in place of the constant `CHUNK_SIZE`: seed the small primes with
`sieve_serial(small_max)` (propagating its panic), resize the buffer to
`max / 2` filling with `true`, split it at `small_max / 2` (always in
range since `small_max ≤ max`) and sweep the suffix window by window. -/
def sieve_chunksWith (max c : Nat) : Option (List Bool) :=
  match sieve_serial (ceilSqrt max) with
  | none => none
  | some s =>
    some ((resize s (max / 2)).take (ceilSqrt max / 2) ++
      runChunks ((resize s (max / 2)).take (ceilSqrt max / 2)) c (ceilSqrt max / 2)
        ((resize s (max / 2)).drop (ceilSqrt max / 2)))

/-- `fn sieve_chunks(max) -> Vec<bool>`. -/
def sieve_chunks (max : Nat) : Option (List Bool) := sieve_chunksWith max CHUNK_SIZE

/-- Number of windows `high.chunks_mut(c)` yields on a slice of length
`len`: `ceil (len / c)`. -/
def numChunks (len c : Nat) : Nat := (len + c - 1) / c

/-- One parallel job of `sieve_parallel`: read window `k` of the suffix,
update it against the read-only `low` prefix, and write it back in place.
`start` is the absolute buffer index where the suffix begins, so the
window base value is `2 * (start + k*c) + 1` exactly as computed by the
source from the enumerated chunk index. -/
def applyChunk (low : List Bool) (c start : Nat) (high : List Bool) (k : Nat) :
    List Bool :=
  high.take (k * c) ++
    update_chunk low ((high.drop (k * c)).take c) (2 * (start + k * c) + 1) ++
      high.drop (k * c + ((high.drop (k * c)).take c).length)

/-- `fn sieve_parallel(max) -> Vec<bool>` with explicit window size `c`:
identical to `sieve_chunks` except that the windows of the suffix are
processed by independent rayon jobs.  The list `order` records the order
in which the jobs write their windows back; a run of the parallel code
corresponds to some permutation of the chunk indices.  Each job reads
only the shared `low` prefix and its own disjoint window. -/
def sieve_parallelWith (max c : Nat) (order : List Nat) : Option (List Bool) :=
  match sieve_serial (ceilSqrt max) with
  | none => none
  | some s =>
    some ((resize s (max / 2)).take (ceilSqrt max / 2) ++
      order.foldl
        (applyChunk ((resize s (max / 2)).take (ceilSqrt max / 2)) c (ceilSqrt max / 2))
        ((resize s (max / 2)).drop (ceilSqrt max / 2)))

/-- `fn sieve_parallel(max) -> Vec<bool>` under completion order `order`. -/
def sieve_parallel (max : Nat) (order : List Nat) : Option (List Bool) :=
  sieve_parallelWith max CHUNK_SIZE order

theorem clearStrideAux_length (fuel : Nat) (l : List Bool) (start stride : Nat) :
    (clearStrideAux fuel l start stride).length = l.length := by
  induction fuel generalizing l start with
  | zero => rfl
  | succ fuel ih =>
    unfold clearStrideAux
    by_cases h : stride = 0 ∨ l.length ≤ start
    · simp [h]
    · simp only [h, if_false]
      rw [ih]
      simp

theorem clearStride_length (l : List Bool) (start stride : Nat) :
    (clearStride l start stride).length = l.length :=
  clearStrideAux_length _ _ _ _

theorem clearStrideAux_getElem? (fuel : Nat) (l : List Bool) (start stride : Nat)
    (hstride : 1 ≤ stride) (hfuel : l.length ≤ start + fuel * stride) (j : Nat) :
    (clearStrideAux fuel l start stride)[j]? =
      if start ≤ j ∧ (j - start) % stride = 0 ∧ j < l.length then some false else l[j]? := by
  induction fuel generalizing l start with
  | zero =>
    have : ¬(start ≤ j ∧ (j - start) % stride = 0 ∧ j < l.length) := by
      intro ⟨h1, _, h3⟩
      simp only [Nat.zero_mul] at hfuel
      omega
    simp only [clearStrideAux, this, if_false]
  | succ fuel ih =>
    unfold clearStrideAux
    by_cases h : stride = 0 ∨ l.length ≤ start
    · have hls : l.length ≤ start := by omega
      have : ¬(start ≤ j ∧ (j - start) % stride = 0 ∧ j < l.length) := by
        intro ⟨h1, _, h3⟩; omega
      simp [h, this]
    · push_neg at h
      obtain ⟨hs0, hsl⟩ := h
      simp only [if_neg (by omega : ¬(stride = 0 ∨ l.length ≤ start))]
      have hfuel' : (l.set start false).length ≤ (start + stride) + fuel * stride := by
        simp only [List.length_set]
        simp only [Nat.succ_mul] at hfuel
        omega
      rw [ih (l.set start false) (start + stride) hfuel']
      simp only [List.length_set]
      split_ifs with hA hB hB
      · rfl
      · obtain ⟨hA1, hA2, hA3⟩ := hA
        rcases Nat.dvd_of_mod_eq_zero hA2 with ⟨k, hk⟩
        have hmod : (j - start) % stride = 0 := by
          have : j - start = stride * (k + 1) := by rw [Nat.mul_succ]; omega
          rw [this]; exact Nat.mul_mod_right stride (k + 1)
        exact absurd ⟨by omega, hmod, hA3⟩ hB
      · obtain ⟨hB1, hB2, hB3⟩ := hB
        have hjs : j = start := by
          by_contra hne
          rcases Nat.dvd_of_mod_eq_zero hB2 with ⟨k, hk⟩
          rcases k with _ | k
          · omega
          · rw [Nat.mul_succ] at hk
            have hmod : (j - (start + stride)) % stride = 0 := by
              have : j - (start + stride) = stride * k := by omega
              rw [this]; exact Nat.mul_mod_right stride k
            exact hA ⟨by omega, hmod, hB3⟩
        subst hjs
        exact List.getElem?_set_self hB3
      · rcases Nat.lt_or_ge j l.length with hlt | hge
        · have hne : start ≠ j := by
            intro heq
            exact hB ⟨by omega, by simp [heq.symm], hlt⟩
          exact List.getElem?_set_ne hne
        · rw [List.getElem?_eq_none (l := l.set start false) (by simpa using hge),
            List.getElem?_eq_none hge]

theorem clearStride_getElem? (l : List Bool) (start stride : Nat)
    (hstride : 1 ≤ stride) (j : Nat) :
    (clearStride l start stride)[j]? =
      if start ≤ j ∧ (j - start) % stride = 0 ∧ j < l.length then some false else l[j]? := by
  apply clearStrideAux_getElem? _ _ _ _ hstride
  have : l.length * 1 ≤ l.length * stride := Nat.mul_le_mul_left l.length hstride
  omega

/-- `q | 1` (Rust bitwise or with one) forces the low bit: it is `q` when
`q` is odd and `q + 1` when `q` is even. -/
theorem lor_one_eq (q : Nat) : q ||| 1 = if q % 2 = 0 then q + 1 else q := by
  apply Nat.eq_of_testBit_eq
  intro i
  cases i with
  | zero =>
    simp only [Nat.testBit_or, Nat.testBit_zero]
    by_cases h : q % 2 = 0
    · have h1 : (q + 1) % 2 = 1 := by omega
      simp [h, h1]
    · have h1 : q % 2 = 1 := by omega
      simp [h, h1]
  | succ i =>
    rw [Nat.testBit_or]
    have h0 : (1 : Nat).testBit (i + 1) = false := by
      rw [Nat.testBit_add_one]
      simp
    rw [h0, Bool.or_false]
    by_cases h : q % 2 = 0
    · rw [if_pos h, Nat.testBit_add_one, Nat.testBit_add_one,
        show (q + 1) / 2 = q / 2 from by omega]
    · rw [if_neg h]

theorem oddMultStart_dvd (base p : Nat) : p ∣ oddMultStart base p :=
  Dvd.intro_left _ rfl

theorem odd_right_of_mul_odd {p a : Nat} (h : p * a % 2 = 1) : a % 2 = 1 := by
  rcases Nat.mod_two_eq_zero_or_one a with h2 | h2
  · rw [Nat.mul_mod, h2, Nat.mul_zero] at h
    omega
  · exact h2

theorem oddMultStart_odd (base p : Nat) (hp : p % 2 = 1) :
    oddMultStart base p % 2 = 1 := by
  unfold oddMultStart
  have hq1 : ((base + p - 1) / p ||| 1) % 2 = 1 := by
    rw [lor_one_eq]
    split <;> omega
  rw [Nat.mul_mod, hq1, hp]

theorem oddMultStart_ge (base p : Nat) (hp : 1 ≤ p) : base ≤ oddMultStart base p := by
  unfold oddMultStart
  have hdm := Nat.div_add_mod (base + p - 1) p
  have hlt : (base + p - 1) % p < p := Nat.mod_lt _ (by omega)
  have h1 : base ≤ p * ((base + p - 1) / p) := by omega
  have h2 : (base + p - 1) / p ≤ (base + p - 1) / p ||| 1 := by
    rw [lor_one_eq]
    split <;> omega
  calc base ≤ p * ((base + p - 1) / p) := h1
    _ ≤ p * ((base + p - 1) / p ||| 1) := Nat.mul_le_mul_left p h2
    _ = ((base + p - 1) / p ||| 1) * p := Nat.mul_comm _ _

theorem oddMultStart_least (base p m : Nat) (hp : p % 2 = 1) (hdvd : p ∣ m)
    (hm : m % 2 = 1) (hbase : base ≤ m) : oddMultStart base p ≤ m := by
  obtain ⟨a, ha⟩ := hdvd
  have hp1 : 1 ≤ p := by omega
  have ha_odd : a % 2 = 1 := odd_right_of_mul_odd (p := p) (ha ▸ hm)
  have hq_le : (base + p - 1) / p ≤ a := by
    rw [Nat.div_le_iff_le_mul_add_pred (by omega)]
    omega
  have hr_le : (base + p - 1) / p ||| 1 ≤ a := by
    rw [lor_one_eq]
    split
    · omega
    · omega
  calc oddMultStart base p = ((base + p - 1) / p ||| 1) * p := rfl
    _ ≤ a * p := Nat.mul_le_mul_right p hr_le
    _ = p * a := Nat.mul_comm _ _
    _ = m := ha.symm

/-- Index arithmetic for a stride pass: with `p` odd, `base` odd and `M`
an odd multiple of `p` at or after `base`, position `j` (representing the
odd value `base + 2*j`) is hit by the stride starting at index
`(M - base) / 2` exactly when `base + 2*j` is a multiple of `p` that is
at least `M`. -/
theorem stride_hit (p base M j : Nat) (hp : p % 2 = 1) (hb : base % 2 = 1)
    (hM : M % 2 = 1) (hdvd : p ∣ M) (hbM : base ≤ M) :
    ((M - base) / 2 ≤ j ∧ (j - (M - base) / 2) % p = 0) ↔
      (p ∣ (base + 2 * j) ∧ M ≤ base + 2 * j) := by
  have hs0 : 2 * ((M - base) / 2) = M - base := by omega
  constructor
  · intro ⟨h1, h2⟩
    obtain ⟨k, hk⟩ := Nat.dvd_of_mod_eq_zero h2
    have hval : base + 2 * j = M + 2 * (p * k) := by omega
    constructor
    · rw [hval]
      exact Nat.dvd_add hdvd ⟨2 * k, by ring⟩
    · omega
  · intro ⟨h1, h2⟩
    obtain ⟨b, hbb⟩ := hdvd
    obtain ⟨a, haa⟩ := h1
    have hv_odd : p * a % 2 = 1 := by rw [← haa]; omega
    have hM_odd : p * b % 2 = 1 := by rw [← hbb]; exact hM
    have ha_odd : a % 2 = 1 := odd_right_of_mul_odd hv_odd
    have hb_odd : b % 2 = 1 := odd_right_of_mul_odd hM_odd
    have hab : b ≤ a :=
      Nat.le_of_mul_le_mul_left (by omega : p * b ≤ p * a) (by omega)
    have hk : a = b + 2 * ((a - b) / 2) := by omega
    have hval : p * a = p * b + 2 * (p * ((a - b) / 2)) := by
      calc p * a = p * (b + 2 * ((a - b) / 2)) := by rw [← hk]
        _ = p * b + 2 * (p * ((a - b) / 2)) := by ring
    have hj : j - (M - base) / 2 = p * ((a - b) / 2) := by omega
    constructor
    · omega
    · rw [hj]
      exact Nat.mul_mod_right _ _

theorem oddPrimes_length (max : Nat) : (oddPrimes max).length = max / 2 := by
  simp [oddPrimes]

theorem oddPrimes_getElem? (max j : Nat) (hj : j < max / 2) :
    (oddPrimes max)[j]? = some (decide (Nat.Prime (2 * j + 1))) := by
  simp [oddPrimes, hj]

/-- An odd number at least 3 with no prime factor `q` with `q² ≤ v` is prime. -/
theorem prime_of_no_small_prime_factor (v : Nat) (h3 : 3 ≤ v)
    (h : ∀ q, Nat.Prime q → q * q ≤ v → ¬ q ∣ v) : Nat.Prime v := by
  by_contra hnp
  have hq_prime : Nat.Prime (Nat.minFac v) := Nat.minFac_prime (by omega)
  have hq_dvd : Nat.minFac v ∣ v := Nat.minFac_dvd v
  have hq_div : Nat.minFac v ≤ v / Nat.minFac v := Nat.minFac_le_div (by omega) hnp
  have hq_sq : Nat.minFac v * Nat.minFac v ≤ v := by
    calc Nat.minFac v * Nat.minFac v ≤ Nat.minFac v * (v / Nat.minFac v) :=
          Nat.mul_le_mul_left _ hq_div
      _ = v := Nat.mul_div_cancel' hq_dvd
  exact h _ hq_prime hq_sq hq_dvd

/-- A number with a prime factor `q` with `q² ≤ v` is not prime. -/
theorem not_prime_of_small_prime_factor (v q : Nat) (hq : Nat.Prime q)
    (hsq : q * q ≤ v) (hdvd : q ∣ v) : ¬ Nat.Prime v := by
  intro hv
  rcases (Nat.Prime.eq_one_or_self_of_dvd hv q hdvd) with h1 | h1
  · exact absurd h1 (Nat.Prime.ne_one hq)
  · have h2 := Nat.Prime.two_le hv
    subst h1
    have : q * 2 ≤ q * q := Nat.mul_le_mul_left q h2
    omega

theorem sieveInv_init (max : Nat) :
    sieveInv max 1 ((List.replicate (max / 2) true).set 0 false) := by
  constructor
  · simp
  · intro j hj
    simp only [List.length_set, List.length_replicate] at hj
    constructor
    · intro htrue
      have hj0 : j ≠ 0 := by
        intro h0
        subst h0
        rw [List.getElem?_set_self (by simpa using hj)] at htrue
        exact Bool.noConfusion (Option.some.inj htrue)
      refine ⟨hj0, ?_⟩
      intro q hq hqp hqs hqd
      have : q = 2 := by
        have h2q := Nat.Prime.two_le hqp
        omega
      subst this
      have : (2 * j + 1) % 2 = 1 := by omega
      rcases hqd with ⟨t, ht⟩
      omega
    · intro ⟨hj0, _⟩
      rw [List.getElem?_set_ne (by omega), List.getElem?_replicate_of_lt (by omega)]

/-- At visit time, a still-set flag at index `i ≥ 1` means `2*i+1` is prime. -/
theorem sieveInv_flag_prime (max i : Nat) (s : List Bool) (hinv : sieveInv max i s)
    (hi1 : 1 ≤ i) (hi : i < s.length) (ht : s[i]? = some true) :
    Nat.Prime (2 * i + 1) := by
  obtain ⟨hlen, hflags⟩ := hinv
  obtain ⟨hi0, hall⟩ := (hflags i hi).mp ht
  apply prime_of_no_small_prime_factor _ (by omega)
  intro q hqp hqs hqd
  have h2q := Nat.Prime.two_le hqp
  have hqlt : q < 2 * i + 1 := by
    have : 2 * q ≤ q * q := Nat.mul_le_mul_right q h2q
    omega
  exact hall q hqlt hqp hqs hqd

/-- At visit time, a cleared flag at index `i ≥ 1` means `2*i+1` is composite. -/
theorem sieveInv_flag_not_prime (max i : Nat) (s : List Bool) (hinv : sieveInv max i s)
    (hi1 : 1 ≤ i) (hi : i < s.length) (hf : s[i]? = some false) :
    ¬ Nat.Prime (2 * i + 1) := by
  obtain ⟨hlen, hflags⟩ := hinv
  have hnot : ¬(i ≠ 0 ∧ ∀ q, q < 2 * i + 1 → Nat.Prime q → q * q ≤ 2 * i + 1
      → ¬ q ∣ (2 * i + 1)) := by
    intro hrhs
    have := (hflags i hi).mpr hrhs
    rw [hf] at this
    exact Bool.noConfusion (Option.some.inj this)
  intro hp
  apply hnot
  refine ⟨by omega, ?_⟩
  intro q hq hqp hqs hqd
  exact not_prime_of_small_prime_factor _ q hqp hqs hqd hp

theorem sieveInv_step_clear (max i : Nat) (s : List Bool) (hinv : sieveInv max i s)
    (hi1 : 1 ≤ i) (hi : i < s.length) (ht : s[i]? = some true) :
    sieveInv max (i + 1) (clearStride s ((2 * i + 1) * (2 * i + 1) / 2) (2 * i + 1)) := by
  have hp_prime : Nat.Prime (2 * i + 1) := sieveInv_flag_prime max i s hinv hi1 hi ht
  obtain ⟨hlen, hflags⟩ := hinv
  have hid : (2 * i + 1) * (2 * i + 1) = 2 * (2 * i * i + 2 * i) + 1 := by ring
  have hp_odd : (2 * i + 1) % 2 = 1 := by omega
  have hpp_odd : ((2 * i + 1) * (2 * i + 1)) % 2 = 1 := by omega
  have hstart : (2 * i + 1) * (2 * i + 1) / 2 = ((2 * i + 1) * (2 * i + 1) - 1) / 2 := by
    omega
  have hhit_iff : ∀ j, ((2 * i + 1) * (2 * i + 1) / 2 ≤ j ∧
      (j - (2 * i + 1) * (2 * i + 1) / 2) % (2 * i + 1) = 0) ↔
      ((2 * i + 1) ∣ (1 + 2 * j) ∧ (2 * i + 1) * (2 * i + 1) ≤ 1 + 2 * j) := by
    intro j
    rw [hstart]
    have := stride_hit (2 * i + 1) 1 ((2 * i + 1) * (2 * i + 1)) j hp_odd (by omega)
      hpp_odd ⟨2 * i + 1, rfl⟩ (by omega)
    simpa using this
  constructor
  · rw [clearStride_length]; exact hlen
  · intro j hj
    rw [clearStride_length] at hj
    rw [clearStride_getElem? s _ _ (by omega) j]
    by_cases hhit : (2 * i + 1) * (2 * i + 1) / 2 ≤ j ∧
        (j - (2 * i + 1) * (2 * i + 1) / 2) % (2 * i + 1) = 0
    · rw [if_pos ⟨hhit.1, hhit.2, hj⟩]
      constructor
      · intro hfalse
        exact absurd (Option.some.inj hfalse) (by simp)
      · intro ⟨hj0, hall⟩
        obtain ⟨hdvd, hle⟩ := (hhit_iff j).mp hhit
        exact absurd (by rwa [show 1 + 2 * j = 2 * j + 1 from by omega] at hdvd)
          (hall (2 * i + 1) (by omega) hp_prime (by omega))
    · have hcond : ¬((2 * i + 1) * (2 * i + 1) / 2 ≤ j ∧
          (j - (2 * i + 1) * (2 * i + 1) / 2) % (2 * i + 1) = 0 ∧ j < s.length) := by
        intro ⟨h1, h2, _⟩
        exact hhit ⟨h1, h2⟩
      rw [if_neg hcond, hflags j hj]
      constructor
      · intro ⟨hj0, hall⟩
        refine ⟨hj0, ?_⟩
        intro q hq hqp hqs hqd
        rcases Nat.lt_or_ge q (2 * i + 1) with hqlt | hqge
        · exact hall q hqlt hqp hqs hqd
        · have hq2 : q = 2 * i + 1 ∨ q = 2 * i + 2 := by omega
          rcases hq2 with hq2 | hq2
        
          · subst hq2
            apply hhit
            apply (hhit_iff j).mpr
            constructor
            · rwa [show 1 + 2 * j = 2 * j + 1 from by omega]
            · omega
          · rcases Nat.Prime.eq_two_or_odd hqp with h2 | hodd
            · omega
            · omega
      · intro ⟨hj0, hall⟩
        exact ⟨hj0, fun q hq hqp hqs hqd => hall q (by omega) hqp hqs hqd⟩

theorem sieveInv_step_skip (max i : Nat) (s : List Bool) (hinv : sieveInv max i s)
    (hi1 : 1 ≤ i) (hi : i < s.length) (hf : s[i]? = some false) :
    sieveInv max (i + 1) s := by
  have hnp : ¬ Nat.Prime (2 * i + 1) := sieveInv_flag_not_prime max i s hinv hi1 hi hf
  obtain ⟨hlen, hflags⟩ := hinv
  refine ⟨hlen, ?_⟩
  intro j hj
  rw [hflags j hj]
  constructor
  · intro ⟨hj0, hall⟩
    refine ⟨hj0, ?_⟩
    intro q hq hqp hqs hqd
    rcases Nat.lt_or_ge q (2 * i + 1) with hqlt | hqge
    · exact hall q hqlt hqp hqs hqd
    · have hq2 : q = 2 * i + 1 ∨ q = 2 * i + 2 := by omega
      rcases hq2 with hq2 | hq2
      · exact absurd (hq2 ▸ hqp) hnp
      · rcases Nat.Prime.eq_two_or_odd hqp with h2 | hodd
        · omega
        · omega
  · intro ⟨hj0, hall⟩
    exact ⟨hj0, fun q hq hqp hqs hqd => hall q (by omega) hqp hqs hqd⟩

theorem sieveInv_break (max i : Nat) (s : List Bool) (hinv : sieveInv max i s)
    (hbreak : max ≤ (2 * i + 1) * (2 * i + 1)) :
    ∀ j, j < s.length → (s[j]? = some true ↔ Nat.Prime (2 * j + 1)) := by
  obtain ⟨hlen, hflags⟩ := hinv
  intro j hj
  rw [hflags j hj]
  constructor
  · intro ⟨hj0, hall⟩
    apply prime_of_no_small_prime_factor _ (by omega)
    intro q hqp hqs hqd
    have hvm : 2 * j + 1 < max := by omega
    have hqlt : q < 2 * i + 1 := by
      by_contra hge
      have : (2 * i + 1) * (2 * i + 1) ≤ q * q :=
        Nat.mul_le_mul (by omega) (by omega)
      omega
    exact hall q hqlt hqp hqs hqd
  · intro hp
    constructor
    · intro h0
      subst h0
      exact absurd hp Nat.not_prime_one
    · intro q hq hqp hqs hqd
      exact not_prime_of_small_prime_factor _ q hqp hqs hqd hp

/-- The stride pass of `sieve_serial` at index `i` hits position `j`
exactly when `2*j+1` is a multiple of `p = 2*i+1` at least `p²`. -/
theorem serial_hit_iff (i j : Nat) :
    ((2 * i + 1) * (2 * i + 1) / 2 ≤ j ∧
      (j - (2 * i + 1) * (2 * i + 1) / 2) % (2 * i + 1) = 0) ↔
    ((2 * i + 1) ∣ (2 * j + 1) ∧ (2 * i + 1) * (2 * i + 1) ≤ 2 * j + 1) := by
  have hid : (2 * i + 1) * (2 * i + 1) = 2 * (2 * i * i + 2 * i) + 1 := by ring
  have hstart : (2 * i + 1) * (2 * i + 1) / 2 = ((2 * i + 1) * (2 * i + 1) - 1) / 2 := by
    omega
  rw [hstart]
  have h := stride_hit (2 * i + 1) 1 ((2 * i + 1) * (2 * i + 1)) j (by omega) (by omega)
    (by omega) ⟨2 * i + 1, rfl⟩ (by omega)
  rw [show 1 + 2 * j = 2 * j + 1 from by omega] at h
  exact h

theorem sieveLoopAux_correct (max : Nat) :
    ∀ fuel s i r, s.length < i + fuel → 1 ≤ i → sieveInv max i s →
      sieveLoopAux max fuel s i = some r →
      r.length = max / 2 ∧ ∀ j, j < r.length → (r[j]? = some true ↔ Nat.Prime (2 * j + 1)) := by
  intro fuel
  induction fuel with
  | zero =>
    intro s i r hfl _ _ heq
    exact Option.noConfusion heq
  | succ fuel ih =>
    intro s i r hfl hi1 hinv heq
    unfold sieveLoopAux at heq
    by_cases hi : i < s.length
    · rw [dif_pos hi] at heq
      by_cases hsi : s[i] = true
      · rw [if_pos hsi] at heq
        by_cases hbrk : max ≤ (2 * i + 1) * (2 * i + 1)
        · rw [if_pos hbrk] at heq
          obtain rfl := Option.some.inj heq
          refine ⟨hinv.1, ?_⟩
          intro j hj
          exact sieveInv_break max i s hinv hbrk j hj
        · rw [if_neg hbrk] at heq
          apply ih _ (i + 1) r ?_ (by omega) ?_ heq
          · rw [clearStride_length]; omega
          · exact sieveInv_step_clear max i s hinv hi1 hi
              (by rw [List.getElem?_eq_getElem hi, hsi])
      · rw [if_neg hsi] at heq
        apply ih _ (i + 1) r (by omega) (by omega) ?_ heq
        apply sieveInv_step_skip max i s hinv hi1 hi
        rw [List.getElem?_eq_getElem hi]
        cases hv : s[i] with
        | true => exact absurd hv hsi
        | false => rfl
    · rw [dif_neg hi] at heq
      exact Option.noConfusion heq

theorem sieveLoopAux_reaches_break (max : Nat) :
    ∀ fuel s i b, 1 ≤ i → i ≤ b → b < s.length → b < i + fuel →
      s[b]? = some true → Nat.Prime (2 * b + 1) → max ≤ (2 * b + 1) * (2 * b + 1) →
      ∃ r, sieveLoopAux max fuel s i = some r := by
  intro fuel
  induction fuel with
  | zero =>
    intro s i b _ hib _ hbf _ _ _
    omega
  | succ fuel ih =>
    intro s i b hi1 hib hbs hbf hsb hbp hbm
    unfold sieveLoopAux
    rw [dif_pos (by omega : i < s.length)]
    by_cases hsi : s[i] = true
    · rw [if_pos hsi]
      by_cases hbrk : max ≤ (2 * i + 1) * (2 * i + 1)
      · rw [if_pos hbrk]
        exact ⟨s, rfl⟩
      · rw [if_neg hbrk]
        have hibne : i ≠ b := by
          intro h
          subst h
          exact hbrk hbm
        apply ih _ (i + 1) b (by omega) (by omega) ?_ (by omega) ?_ hbp hbm
        · rw [clearStride_length]; exact hbs
        · rw [clearStride_getElem? s _ _ (by omega) b, if_neg ?_]
          · exact hsb
          · intro ⟨hh1, hh2, _⟩
            obtain ⟨hdvd, _⟩ := (serial_hit_iff i b).mp ⟨hh1, hh2⟩
            rcases Nat.Prime.eq_one_or_self_of_dvd hbp _ hdvd with h1 | h1
            · omega
            · omega
    · rw [if_neg hsi]
      have hibne : i ≠ b := by
        intro h
        subst h
        rw [List.getElem?_eq_getElem hbs] at hsb
        exact hsi (Option.some.inj hsb)
      exact ih s (i + 1) b (by omega) (by omega) hbs (by omega) hsb hbp hbm

/-- Bertrand's postulate provides an odd prime `q` with `max ≤ q²` whose
index lies inside the buffer: the scan of `sieve_serial` therefore always
reaches its break for `max ≥ 4`. -/
theorem exists_break_index (max : Nat) (h4 : 4 ≤ max) :
    ∃ b, 1 ≤ b ∧ b < max / 2 ∧ Nat.Prime (2 * b + 1) ∧ max ≤ (2 * b + 1) * (2 * b + 1) := by
  have hs2 : 2 ≤ Nat.sqrt max := Nat.le_sqrt.mpr (by omega)
  obtain ⟨q, hqp, hq1, hq2⟩ := Nat.exists_prime_lt_and_le_two_mul (Nat.sqrt max) (by omega)
  have hq_odd : q % 2 = 1 := by
    rcases Nat.Prime.eq_two_or_odd hqp with h | h
    · omega
    · exact h
  have hsqle : Nat.sqrt max * Nat.sqrt max ≤ max := Nat.sqrt_le max
  have hmaxlt : max < (Nat.sqrt max + 1) * (Nat.sqrt max + 1) := Nat.lt_succ_sqrt max
  have h2s : 2 * Nat.sqrt max ≤ Nat.sqrt max * Nat.sqrt max :=
    Nat.mul_le_mul_right _ hs2
  have heq : 2 * ((q - 1) / 2) + 1 = q := by omega
  refine ⟨(q - 1) / 2, by omega, by omega, ?_, ?_⟩
  · rw [heq]; exact hqp
  · have h1 : Nat.sqrt max + 1 ≤ q := by omega
    have hqq : (Nat.sqrt max + 1) * (Nat.sqrt max + 1) ≤ q * q := Nat.mul_le_mul h1 h1
    rw [heq]
    omega

/-- For `max ≥ 4`, `sieve_serial` runs to completion and its buffer is
exactly the primality table of the odd integers below `max`. -/
theorem sieve_serial_eq_oddPrimes (max : Nat) (h4 : 4 ≤ max) :
    sieve_serial max = some (oddPrimes max) := by
  have hn : ¬ (max / 2 = 0) := by omega
  unfold sieve_serial
  rw [if_neg hn]
  obtain ⟨b, hb1, hb2, hbp, hbm⟩ := exists_break_index max h4
  have hlen0 : ((List.replicate (max / 2) true).set 0 false).length = max / 2 := by simp
  have hsb : ((List.replicate (max / 2) true).set 0 false)[b]? = some true := by
    rw [List.getElem?_set_ne (by omega), List.getElem?_replicate_of_lt (by omega)]
  obtain ⟨r, hr⟩ := sieveLoopAux_reaches_break max (max / 2)
    ((List.replicate (max / 2) true).set 0 false) 1 b (le_refl 1) hb1 (by omega) (by omega)
    hsb hbp hbm
  rw [hr]
  obtain ⟨hrlen, hrspec⟩ := sieveLoopAux_correct max (max / 2)
    ((List.replicate (max / 2) true).set 0 false) 1 r (by omega) (le_refl 1)
    (sieveInv_init max) hr
  congr 1
  apply List.ext_getElem?
  intro j
  by_cases hj : j < max / 2
  · have hjr : j < r.length := by omega
    have hspec := hrspec j hjr
    rw [List.getElem?_eq_getElem hjr, oddPrimes_getElem? max j hj]
    by_cases hp : Nat.Prime (2 * j + 1)
    · have hv : r[j] = true := by
        have h2 := hspec.mpr hp
        rw [List.getElem?_eq_getElem hjr] at h2
        exact Option.some.inj h2
      rw [hv, decide_eq_true hp]
    · have hv : r[j] = false := by
        cases hvv : r[j] with
        | true =>
          exact absurd (hspec.mp (by rw [List.getElem?_eq_getElem hjr, hvv])) hp
        | false => rfl
      rw [hv, decide_eq_false hp]
  · rw [List.getElem?_eq_none (by omega), List.getElem?_eq_none (by rw [oddPrimes_length]; omega)]

/-- For `max < 4`, `sieve_serial` panics: either `sieve[0] = false` on an
empty buffer (`max < 2`) or the scan reads `sieve[1]` out of bounds
(`max = 2, 3`). -/
theorem sieve_serial_eq_none (max : Nat) (hmax : max < 4) : sieve_serial max = none := by
  unfold sieve_serial
  by_cases h : max / 2 = 0
  · rw [if_pos h]
  · rw [if_neg h]
    have h1 : max / 2 = 1 := by omega
    rw [h1]
    have hl : ((List.replicate 1 true).set 0 false) = [false] := rfl
    rw [hl]
    unfold sieveLoopAux
    rw [dif_neg (by simp)]

theorem chunkStart_dvd (base p : Nat) : p ∣ chunkStart base p := by
  unfold chunkStart
  split
  · exact oddMultStart_dvd base p
  · exact ⟨p, rfl⟩

theorem chunkStart_odd (base p : Nat) (hp : p % 2 = 1) : chunkStart base p % 2 = 1 := by
  unfold chunkStart
  split
  · exact oddMultStart_odd base p hp
  · rw [Nat.mul_mod, hp]

theorem chunkStart_ge_base (base p : Nat) (hp : 1 ≤ p) : base ≤ chunkStart base p := by
  unfold chunkStart
  split
  · exact oddMultStart_ge base p hp
  · omega

theorem chunkStart_le_iff (base p v : Nat) (hp : p % 2 = 1)
    (hdvd : p ∣ v) (hv : v % 2 = 1) (hbase : base ≤ v) :
    (chunkStart base p ≤ v ↔ p * p ≤ v) := by
  unfold chunkStart
  by_cases hppb : p * p < base
  · rw [if_pos hppb]
    constructor
    · intro _; omega
    · intro _; exact oddMultStart_least base p v hp hdvd hv hbase
  · rw [if_neg hppb]

/-- Effect of one stride pass of `update_chunk` on position `j` of the
window (value `base + 2*j`). -/
theorem update_hit_char (base p : Nat) (chunk : List Bool) (j : Nat)
    (hb : base % 2 = 1) (hp : p % 2 = 1) (hj : j < chunk.length) :
    (clearStride chunk ((chunkStart base p - base) / 2) p)[j]? =
      if p ∣ (base + 2 * j) ∧ p * p ≤ base + 2 * j then some false else chunk[j]? := by
  rw [clearStride_getElem? chunk _ _ (by omega) j]
  have hiff := stride_hit p base (chunkStart base p) j hp hb (chunkStart_odd base p hp)
    (chunkStart_dvd base p) (chunkStart_ge_base base p (by omega))
  have hcond : ((chunkStart base p - base) / 2 ≤ j ∧
      (j - (chunkStart base p - base) / 2) % p = 0 ∧ j < chunk.length) ↔
      (p ∣ (base + 2 * j) ∧ p * p ≤ base + 2 * j) := by
    constructor
    · intro ⟨h1, h2, _⟩
      obtain ⟨hdvd, hle⟩ := hiff.mp ⟨h1, h2⟩
      refine ⟨hdvd, ?_⟩
      exact (chunkStart_le_iff base p _ hp hdvd (by omega) (by omega)).mp hle
    · intro ⟨hdvd, hle⟩
      have hge : chunkStart base p ≤ base + 2 * j :=
        (chunkStart_le_iff base p _ hp hdvd (by omega) (by omega)).mpr hle
      obtain ⟨h1, h2⟩ := hiff.mpr ⟨hdvd, hge⟩
      exact ⟨h1, h2, hj⟩
  by_cases hc : p ∣ (base + 2 * j) ∧ p * p ≤ base + 2 * j
  · rw [if_pos (hcond.mpr hc), if_pos hc]
  · rw [if_neg (fun h => hc (hcond.mp h)), if_neg hc]

/-- When the computed stride start lies beyond the window, no value of the
window is an odd multiple of `p` at or past `p²`. -/
theorem update_skip_char (base p L j : Nat) (hb : base % 2 = 1) (hp : p % 2 = 1)
    (hj : j < L) (hm : base + L * 2 ≤ chunkStart base p) :
    ¬(p ∣ (base + 2 * j) ∧ p * p ≤ base + 2 * j) := by
  intro ⟨hdvd, hle⟩
  have hge : chunkStart base p ≤ base + 2 * j :=
    (chunkStart_le_iff base p _ hp hdvd (by omega) (by omega)).mpr hle
  omega

theorem updateLoopAux_length (low : List Bool) (base maxv : Nat) :
    ∀ fuel chunk i, (updateLoopAux low base maxv fuel chunk i).length = chunk.length := by
  intro fuel
  induction fuel with
  | zero => intro chunk i; rfl
  | succ fuel ih =>
    intro chunk i
    unfold updateLoopAux
    by_cases hi : i < low.length
    · rw [dif_pos hi]
      by_cases hli : low[i] = true
      · rw [if_pos hli]
        by_cases hbrk : maxv ≤ (2 * i + 1) * (2 * i + 1)
        · rw [if_pos hbrk]
        · rw [if_neg hbrk]
          by_cases hcs : chunkStart base (2 * i + 1) < maxv
          · rw [if_pos hcs, ih, clearStride_length]
          · rw [if_neg hcs, ih]
      · rw [if_neg hli, ih]
    · rw [dif_neg hi]

theorem update_chunk_length (low chunk : List Bool) (base : Nat) :
    (update_chunk low chunk base).length = chunk.length :=
  updateLoopAux_length low base _ low.length chunk 0

/-- Pointwise effect of the `update_chunk` loop from index `i` on: a flag
of the window survives exactly when it survived before and no set entry
of `low` from `i` on strikes its value. -/
theorem updateLoopAux_getElem? (low : List Bool) (base : Nat) (hb : base % 2 = 1) :
    ∀ fuel chunk i j, low.length ≤ i + fuel → j < chunk.length →
      ((updateLoopAux low base (base + chunk.length * 2) fuel chunk i)[j]? = some true ↔
        (chunk[j]? = some true ∧ ∀ k, i ≤ k → low[k]? = some true →
          ¬((2 * k + 1) ∣ (base + 2 * j) ∧
            (2 * k + 1) * (2 * k + 1) ≤ base + 2 * j))) := by
  intro fuel
  induction fuel with
  | zero =>
    intro chunk i j hfl hj
    constructor
    · intro h
      refine ⟨h, ?_⟩
      intro k hk hlk
      rw [List.getElem?_eq_none (by omega)] at hlk
      exact absurd hlk (by simp)
    · exact fun h => h.1
  | succ fuel ih =>
    intro chunk i j hfl hj
    unfold updateLoopAux
    by_cases hi : i < low.length
    · rw [dif_pos hi]
      by_cases hli : low[i] = true
      · rw [if_pos hli]
        by_cases hbrk : base + chunk.length * 2 ≤ (2 * i + 1) * (2 * i + 1)
        · rw [if_pos hbrk]
          constructor
          · intro h
            refine ⟨h, ?_⟩
            intro k hk hlk ⟨hdvd, hle⟩
            have hmono : (2 * i + 1) * (2 * i + 1) ≤ (2 * k + 1) * (2 * k + 1) :=
              Nat.mul_le_mul (by omega) (by omega)
            omega
          · exact fun h => h.1
        · rw [if_neg hbrk]
          by_cases hcs : chunkStart base (2 * i + 1) < base + chunk.length * 2
          · rw [if_pos hcs]
            have hlen' :
                (clearStride chunk ((chunkStart base (2 * i + 1) - base) / 2)
                  (2 * i + 1)).length = chunk.length := clearStride_length _ _ _
            have hih := ih
              (clearStride chunk ((chunkStart base (2 * i + 1) - base) / 2) (2 * i + 1))
              (i + 1) j (by omega) (by rw [hlen']; exact hj)
            rw [hlen'] at hih
            rw [hih, update_hit_char base (2 * i + 1) chunk j hb (by omega) hj]
            constructor
            · intro ⟨h1, h2⟩
              by_cases hhit : (2 * i + 1) ∣ (base + 2 * j) ∧
                  (2 * i + 1) * (2 * i + 1) ≤ base + 2 * j
              · rw [if_pos hhit] at h1
                exact absurd (Option.some.inj h1) (by simp)
              · rw [if_neg hhit] at h1
                refine ⟨h1, ?_⟩
                intro k hk hlk
                rcases Nat.eq_or_lt_of_le hk with heq | hlt
                · subst heq
                  exact hhit
                · exact h2 k (by omega) hlk
            · intro ⟨h1, h2⟩
              have hhit_i : ¬((2 * i + 1) ∣ (base + 2 * j) ∧
                  (2 * i + 1) * (2 * i + 1) ≤ base + 2 * j) :=
                h2 i (le_refl i) (by rw [List.getElem?_eq_getElem hi, hli])
              rw [if_neg hhit_i]
              exact ⟨h1, fun k hk hlk => h2 k (by omega) hlk⟩
          · rw [if_neg hcs]
            rw [ih chunk (i + 1) j (by omega) hj]
            have hskip : ¬((2 * i + 1) ∣ (base + 2 * j) ∧
                (2 * i + 1) * (2 * i + 1) ≤ base + 2 * j) :=
              update_skip_char base (2 * i + 1) chunk.length j hb (by omega) hj (by omega)
            constructor
            · intro ⟨h1, h2⟩
              refine ⟨h1, ?_⟩
              intro k hk hlk
              rcases Nat.eq_or_lt_of_le hk with heq | hlt
              · subst heq
                exact hskip
              · exact h2 k (by omega) hlk
            · intro ⟨h1, h2⟩
              exact ⟨h1, fun k hk hlk => h2 k (by omega) hlk⟩
      · rw [if_neg hli]
        rw [ih chunk (i + 1) j (by omega) hj]
        constructor
        · intro ⟨h1, h2⟩
          refine ⟨h1, ?_⟩
          intro k hk hlk
          rcases Nat.eq_or_lt_of_le hk with heq | hlt
          · subst heq
            rw [List.getElem?_eq_getElem hi] at hlk
            exact absurd (Option.some.inj hlk) hli
          · exact h2 k (by omega) hlk
        · intro ⟨h1, h2⟩
          exact ⟨h1, fun k hk hlk => h2 k (by omega) hlk⟩
    · rw [dif_neg hi]
      constructor
      · intro h
        refine ⟨h, ?_⟩
        intro k hk hlk
        rw [List.getElem?_eq_none (by omega)] at hlk
        exact absurd hlk (by simp)
      · exact fun h => h.1

theorem update_chunk_getElem? (low chunk : List Bool) (base j : Nat)
    (hb : base % 2 = 1) (hj : j < chunk.length) :
    ((update_chunk low chunk base)[j]? = some true ↔
      (chunk[j]? = some true ∧ ∀ k, low[k]? = some true →
        ¬((2 * k + 1) ∣ (base + 2 * j) ∧
          (2 * k + 1) * (2 * k + 1) ≤ base + 2 * j))) := by
  unfold update_chunk
  rw [updateLoopAux_getElem? low base hb low.length chunk 0 j (by omega) hj]
  constructor
  · intro ⟨h1, h2⟩
    exact ⟨h1, fun k hlk => h2 k (Nat.zero_le k) hlk⟩
  · intro ⟨h1, h2⟩
    exact ⟨h1, fun k _ hlk => h2 k hlk⟩

theorem ceilSqrt_sq_ge (n : Nat) : n ≤ ceilSqrt n * ceilSqrt n := by
  unfold ceilSqrt
  split
  · omega
  · have h1 : n < (Nat.sqrt n + 1) * (Nat.sqrt n + 1) := Nat.lt_succ_sqrt n
    omega

theorem ceilSqrt_le_self (n : Nat) (h2 : 2 ≤ n) : ceilSqrt n ≤ n := by
  unfold ceilSqrt
  have h1 : Nat.sqrt n < n := Nat.sqrt_lt_self (by omega)
  split <;> omega

theorem ceilSqrt_ge_four (n : Nat) (h10 : 10 ≤ n) : 4 ≤ ceilSqrt n := by
  unfold ceilSqrt
  have h3 : 3 ≤ Nat.sqrt n := Nat.le_sqrt.mpr (by omega)
  by_cases hsq : Nat.sqrt n * Nat.sqrt n = n
  · rw [if_pos hsq]
    by_contra h4
    have h33 : Nat.sqrt n = 3 := by omega
    rw [h33] at hsq
    omega
  · rw [if_neg hsq]
    omega

theorem ceilSqrt_lt_four (n : Nat) (h9 : n ≤ 9) : ceilSqrt n < 4 := by
  unfold ceilSqrt
  have h1 : Nat.sqrt n < 4 := Nat.sqrt_lt.mpr (by omega)
  by_cases hsq : Nat.sqrt n * Nat.sqrt n = n
  · rw [if_pos hsq]
    omega
  · rw [if_neg hsq]
    rcases Nat.lt_or_ge n 9 with h | h
    · have : Nat.sqrt n < 3 := Nat.sqrt_lt.mpr (by omega)
      omega
    · have h99 : n = 9 := by omega
      subst h99
      have ha : 3 ≤ Nat.sqrt 9 := Nat.le_sqrt.mpr (by omega)
      have hb : Nat.sqrt 9 = 3 := by omega
      rw [hb] at hsq
      omega

theorem resize_length (l : List Bool) (n : Nat) : (resize l n).length = n := by
  unfold resize
  simp only [List.length_append, List.length_take, List.length_replicate]
  omega

theorem resize_getElem?_lt (l : List Bool) (n j : Nat) (hj : j < l.length)
    (hln : l.length ≤ n) : (resize l n)[j]? = l[j]? := by
  unfold resize
  rw [List.getElem?_append_left (by simp only [List.length_take]; omega),
    List.getElem?_take_of_lt (by omega)]

theorem resize_getElem?_ge (l : List Bool) (n j : Nat) (hj : l.length ≤ j)
    (hjn : j < n) : (resize l n)[j]? = some true := by
  unfold resize
  rw [List.getElem?_append_right (by simp only [List.length_take]; omega)]
  rw [List.getElem?_replicate_of_lt (by simp only [List.length_take]; omega)]

theorem runChunksAux_length (low : List Bool) (c : Nat) :
    ∀ fuel start high, (runChunksAux low c fuel start high).length = high.length := by
  intro fuel
  induction fuel with
  | zero => intro start high; rfl
  | succ fuel ih =>
    intro start high
    unfold runChunksAux
    by_cases h : c = 0 ∨ high.length = 0
    · rw [if_pos h]
    · rw [if_neg h]
      simp only [List.length_append, update_chunk_length, List.length_take, ih,
        List.length_drop]
      omega

theorem runChunks_length (low : List Bool) (c start : Nat) (high : List Bool) :
    (runChunks low c start high).length = high.length :=
  runChunksAux_length low c _ _ _

theorem runChunksAux_getElem? (low : List Bool) (c : Nat) (hc : 1 ≤ c) :
    ∀ fuel high start j, high.length ≤ fuel → j < high.length →
      ((runChunksAux low c fuel start high)[j]? = some true ↔
        (high[j]? = some true ∧ ∀ k, low[k]? = some true →
          ¬((2 * k + 1) ∣ (2 * (start + j) + 1) ∧
            (2 * k + 1) * (2 * k + 1) ≤ 2 * (start + j) + 1))) := by
  intro fuel
  induction fuel with
  | zero =>
    intro high start j hfl hj
    omega
  | succ fuel ih =>
    intro high start j hfl hj
    unfold runChunksAux
    rw [if_neg (by omega : ¬(c = 0 ∨ high.length = 0))]
    have hlen1 : (update_chunk low (high.take c) (2 * start + 1)).length =
        min c high.length := by
      rw [update_chunk_length]
      simp
    rcases Nat.lt_or_ge j c with hjc | hjc
    · rw [List.getElem?_append_left (by omega)]
      have hjt : j < (high.take c).length := by simp; omega
      have h1 := update_chunk_getElem? low (high.take c) (2 * start + 1) j (by omega) hjt
      rw [show 2 * start + 1 + 2 * j = 2 * (start + j) + 1 from by ring] at h1
      rw [h1, List.getElem?_take_of_lt hjc]
    · rw [List.getElem?_append_right (by rw [hlen1]; omega), hlen1]
      have hih := ih (high.drop c) (start + c) (j - min c high.length)
        (by simp; omega) (by simp; omega)
      rw [hih, List.getElem?_drop,
        show c + (j - min c high.length) = j from by omega,
        show start + c + (j - min c high.length) = start + j from by omega]

/-- For `max ≥ 10` and any positive window size, the chunked sieve
completes and produces the primality table of the odd integers below
`max`. -/
theorem sieve_chunksWith_eq_oddPrimes (max c : Nat) (h10 : 10 ≤ max) (hc : 1 ≤ c) :
    sieve_chunksWith max c = some (oddPrimes max) := by
  have hsm4 : 4 ≤ ceilSqrt max := ceilSqrt_ge_four max h10
  have hsmle : ceilSqrt max ≤ max := ceilSqrt_le_self max (by omega)
  have hsq : max ≤ ceilSqrt max * ceilSqrt max := ceilSqrt_sq_ge max
  have hser : sieve_serial (ceilSqrt max) = some (oddPrimes (ceilSqrt max)) :=
    sieve_serial_eq_oddPrimes (ceilSqrt max) hsm4
  unfold sieve_chunksWith
  rw [hser]
  dsimp only
  have hs0n : ceilSqrt max / 2 ≤ max / 2 := by omega
  have hlenlow : (oddPrimes (ceilSqrt max)).length = ceilSqrt max / 2 :=
    oddPrimes_length _
  set B := resize (oddPrimes (ceilSqrt max)) (max / 2) with hB
  set T := List.take (ceilSqrt max / 2) B with hT
  set D := List.drop (ceilSqrt max / 2) B with hD
  have hrlen : B.length = max / 2 := resize_length _ _
  have hTlen : T.length = ceilSqrt max / 2 := by
    rw [hT, List.length_take, hrlen]
    omega
  have hDlen : D.length = max / 2 - ceilSqrt max / 2 := by
    rw [hD, List.length_drop, hrlen]
  have hlow : ∀ k, k < ceilSqrt max / 2 →
      T[k]? = some (decide (Nat.Prime (2 * k + 1))) := by
    intro k hk
    rw [hT, List.getElem?_take_of_lt hk, hB,
      resize_getElem?_lt _ _ _ (by omega) (by omega),
      oddPrimes_getElem? _ k hk]
  have hhigh : ∀ jj, jj < max / 2 - ceilSqrt max / 2 → D[jj]? = some true := by
    intro jj hjj
    rw [hD, List.getElem?_drop, hB, resize_getElem?_ge _ _ _ (by omega) (by omega)]
  congr 1
  apply List.ext_getElem?
  intro j
  by_cases hjn : j < max / 2
  · rcases Nat.lt_or_ge j (ceilSqrt max / 2) with hjs | hjs
    · rw [List.getElem?_append_left (by omega), hlow j hjs,
        oddPrimes_getElem? max j hjn]
    · rw [List.getElem?_append_right (by omega), hTlen]
      unfold runChunks
      have hrc := runChunksAux_getElem? T c hc D.length D
        (ceilSqrt max / 2) (j - ceilSqrt max / 2) (le_refl _) (by omega)
      rw [show ceilSqrt max / 2 + (j - ceilSqrt max / 2) = j from by omega] at hrc
      have hv1 : 2 * j + 1 < max := by omega
      have hchar : ((D[j - ceilSqrt max / 2]? = some true ∧
            ∀ k, T[k]? = some true →
              ¬((2 * k + 1) ∣ (2 * j + 1) ∧
                (2 * k + 1) * (2 * k + 1) ≤ 2 * j + 1)) ↔
          Nat.Prime (2 * j + 1)) := by
        constructor
        · intro ⟨_, hall⟩
          apply prime_of_no_small_prime_factor _ (by omega)
          intro q hqp hqs hqd
          have hq2 := Nat.Prime.two_le hqp
          have hqodd : q % 2 = 1 := by
            rcases Nat.Prime.eq_two_or_odd hqp with h2 | hodd
            · subst h2
              rcases hqd with ⟨t, ht⟩
              omega
            · exact hodd
          have hqsm : q < ceilSqrt max := by
            by_contra hge
            have : ceilSqrt max * ceilSqrt max ≤ q * q :=
              Nat.mul_le_mul (by omega) (by omega)
            omega
          have hkq : (q - 1) / 2 < ceilSqrt max / 2 := by omega
          have hlq := hlow ((q - 1) / 2) hkq
          rw [show 2 * ((q - 1) / 2) + 1 = q from by omega] at hlq
          apply hall ((q - 1) / 2)
          · rw [hlq, decide_eq_true hqp]
          · rw [show 2 * ((q - 1) / 2) + 1 = q from by omega]
            exact ⟨hqd, hqs⟩
        · intro hp
          refine ⟨hhigh _ (by omega), ?_⟩
          intro k hlk ⟨hdvd, hle⟩
          have hkq : k < ceilSqrt max / 2 := by
            by_contra hge
            rw [List.getElem?_eq_none (by omega)] at hlk
            exact Option.noConfusion hlk
          rw [hlow k hkq] at hlk
          have hkp : Nat.Prime (2 * k + 1) :=
            of_decide_eq_true (Option.some.inj hlk)
          exact absurd hp (not_prime_of_small_prime_factor _ _ hkp hle hdvd)
      rw [oddPrimes_getElem? max j hjn]
      have hjlt : j - ceilSqrt max / 2 <
          (runChunksAux T c D.length (ceilSqrt max / 2) D).length := by
        rw [runChunksAux_length]
        omega
      rw [List.getElem?_eq_getElem hjlt]
      by_cases hp : Nat.Prime (2 * j + 1)
      · have hv := (hrc.trans hchar).mpr hp
        rw [List.getElem?_eq_getElem hjlt] at hv
        rw [Option.some.inj hv, decide_eq_true hp]
      · have hv : (runChunksAux T c D.length (ceilSqrt max / 2) D)[j - ceilSqrt max / 2] =
            false := by
          cases hvv : (runChunksAux T c D.length (ceilSqrt max / 2) D)[j - ceilSqrt max / 2] with
          | true =>
            exact absurd ((hrc.trans hchar).mp
              (by rw [List.getElem?_eq_getElem hjlt, hvv])) hp
          | false => rfl
        rw [hv, decide_eq_false hp]
  · rw [List.getElem?_eq_none, List.getElem?_eq_none (by rw [oddPrimes_length]; omega)]
    rw [List.length_append, hTlen, runChunks_length, hDlen]
    omega

theorem sieve_chunksWith_eq_none (max c : Nat) (h9 : max ≤ 9) :
    sieve_chunksWith max c = none := by
  unfold sieve_chunksWith
  rw [sieve_serial_eq_none (ceilSqrt max) (ceilSqrt_lt_four max h9)]

theorem div_lt_numChunks (j len c : Nat) (hc : 1 ≤ c) (hj : j < len) :
    j / c < numChunks len c := by
  unfold numChunks
  have h1 : j / c * c ≤ j := Nat.div_mul_le_self j c
  have h2 : (j / c + 1) * c ≤ len + c - 1 := by
    rw [Nat.succ_mul]
    omega
  exact Nat.lt_of_lt_of_le (Nat.lt_succ_self _)
    ((Nat.le_div_iff_mul_le (by omega)).mpr h2)

theorem mul_lt_of_lt_numChunks (k len c : Nat) (hc : 1 ≤ c)
    (hk : k < numChunks len c) : k * c < len := by
  unfold numChunks at hk
  have h2 := (Nat.le_div_iff_mul_le (by omega : 0 < c)).mp hk
  rw [Nat.succ_mul] at h2
  omega

theorem div_eq_iff_range (j c k : Nat) (hc : 1 ≤ c) :
    j / c = k ↔ (k * c ≤ j ∧ j < k * c + c) := by
  constructor
  · intro h
    have h1 := Nat.div_add_mod j c
    have h2 : j % c < c := Nat.mod_lt j (by omega)
    rw [h] at h1
    have hck : c * k = k * c := Nat.mul_comm c k
    omega
  · intro ⟨h1, h2⟩
    apply Nat.le_antisymm
    · have := (Nat.div_lt_iff_lt_mul (by omega : 0 < c)).mpr
        (show j < (k + 1) * c from by rw [Nat.succ_mul]; omega)
      omega
    · exact (Nat.le_div_iff_mul_le (by omega : 0 < c)).mpr h1

theorem applyChunk_length (low : List Bool) (c start : Nat) (high : List Bool)
    (k : Nat) : (applyChunk low c start high k).length = high.length := by
  unfold applyChunk
  simp only [List.length_append, update_chunk_length, List.length_take,
    List.length_drop]
  omega

theorem applyChunk_getElem?_in (low : List Bool) (c start : Nat) (high : List Bool)
    (k j : Nat) (hc : 1 ≤ c) (hj : j < high.length) (hjk : j / c = k) :
    (applyChunk low c start high k)[j]? =
      (update_chunk low ((high.drop (k * c)).take c) (2 * (start + k * c) + 1))[j - k * c]? := by
  obtain ⟨hr1, hr2⟩ := (div_eq_iff_range j c k hc).mp hjk
  unfold applyChunk
  have htk : (high.take (k * c)).length = k * c := by
    simp only [List.length_take]
    omega
  have hch : ((high.drop (k * c)).take c).length = min c (high.length - k * c) := by
    simp only [List.length_take, List.length_drop]
  have hab : (high.take (k * c) ++
      update_chunk low ((high.drop (k * c)).take c) (2 * (start + k * c) + 1)).length =
      k * c + min c (high.length - k * c) := by
    rw [List.length_append, htk, update_chunk_length, hch]
  rw [List.getElem?_append_left (by rw [hab]; omega),
    List.getElem?_append_right (by rw [htk]; omega), htk]

theorem applyChunk_getElem?_out (low : List Bool) (c start : Nat) (high : List Bool)
    (k j : Nat) (hc : 1 ≤ c) (hj : j < high.length) (hjk : j / c ≠ k) :
    (applyChunk low c start high k)[j]? = high[j]? := by
  unfold applyChunk
  have htk : (high.take (k * c)).length = min (k * c) high.length := by
    simp only [List.length_take]
  have hch : ((high.drop (k * c)).take c).length = min c (high.length - k * c) := by
    simp only [List.length_take, List.length_drop]
  have hab : (high.take (k * c) ++
      update_chunk low ((high.drop (k * c)).take c) (2 * (start + k * c) + 1)).length =
      min (k * c) high.length + min c (high.length - k * c) := by
    rw [List.length_append, htk, update_chunk_length, hch]
  rcases Nat.lt_or_ge j (k * c) with hlt | hge
  · rw [List.getElem?_append_left (by rw [hab]; omega),
      List.getElem?_append_left (by rw [htk]; omega), List.getElem?_take_of_lt hlt]
  · -- j ≥ k*c and j/c ≠ k forces j ≥ k*c + c, past the whole window
    have hout : k * c + c ≤ j := by
      by_contra hin
      exact hjk ((div_eq_iff_range j c k hc).mpr ⟨hge, by omega⟩)
    rw [List.getElem?_append_right (by rw [hab]; omega), hab, List.getElem?_drop, hch,
      show k * c + min c (high.length - k * c) +
        (j - (min (k * c) high.length + min c (high.length - k * c))) = j from by omega]

theorem option_bool_ext {x y : Option Bool} (hx : x.isSome = true)
    (hy : y.isSome = true) (h : x = some true ↔ y = some true) : x = y := by
  rcases x with _ | b1
  · simp at hx
  · rcases y with _ | b2
    · simp at hy
    · cases b1 <;> cases b2 <;> simp_all

/-- The chunked sweep restricted to one window: position `j` of the suffix
(with `j / c = k`) carries exactly the value `update_chunk` computes for
window `k` from the original suffix content. -/
theorem runChunks_chunk_value (low : List Bool) (c start : Nat) (hc : 1 ≤ c)
    (high0 : List Bool) (k j : Nat) (hj : j < high0.length) (hjk : j / c = k) :
    (runChunks low c start high0)[j]? =
      (update_chunk low ((high0.drop (k * c)).take c)
        (2 * (start + k * c) + 1))[j - k * c]? := by
  obtain ⟨hr1, hr2⟩ := (div_eq_iff_range j c k hc).mp hjk
  have hch : ((high0.drop (k * c)).take c).length = min c (high0.length - k * c) := by
    simp only [List.length_take, List.length_drop]
  have hjj : j - k * c < ((high0.drop (k * c)).take c).length := by
    rw [hch]; omega
  apply option_bool_ext
  · rw [List.getElem?_eq_getElem (by rw [runChunks_length]; omega)]
    rfl
  · rw [List.getElem?_eq_getElem (by rw [update_chunk_length]; omega)]
    rfl
  · unfold runChunks
    rw [runChunksAux_getElem? low c hc high0.length high0 start j (le_refl _) hj]
    have hup := update_chunk_getElem? low ((high0.drop (k * c)).take c)
      (2 * (start + k * c) + 1) (j - k * c) (by omega) hjj
    rw [show 2 * (start + k * c) + 1 + 2 * (j - k * c) = 2 * (start + j) + 1
      from by omega] at hup
    rw [hup, List.getElem?_take_of_lt (by omega), List.getElem?_drop,
      show k * c + (j - k * c) = j from by omega]

theorem foldl_applyChunk_length (low : List Bool) (c start : Nat) :
    ∀ (ord : List Nat) (high : List Bool),
      (ord.foldl (applyChunk low c start) high).length = high.length := by
  intro ord
  induction ord with
  | nil => intro high; rfl
  | cons k rest ih =>
    intro high
    rw [List.foldl_cons, ih, applyChunk_length]

/-- Scheduling invariant of the parallel sweep: starting from a state
where every window still to be processed holds its original content and
every other window already holds its final content, executing the
remaining jobs in any order yields the chunked result.  Windows are
pairwise disjoint and `low` is read-only, which is exactly why the order
never matters. -/
theorem foldl_applyChunk_getElem? (low : List Bool) (c start : Nat) (hc : 1 ≤ c)
    (high0 : List Bool) :
    ∀ (ord : List Nat) (high : List Bool),
      high.length = high0.length →
      ord.Nodup →
      (∀ k, k ∈ ord → k < numChunks high0.length c) →
      (∀ j, j < high0.length →
        (j / c ∈ ord → high[j]? = high0[j]?) ∧
        (j / c ∉ ord → high[j]? = (runChunks low c start high0)[j]?)) →
      ∀ j, j < high0.length →
        (ord.foldl (applyChunk low c start) high)[j]? =
          (runChunks low c start high0)[j]? := by
  intro ord
  induction ord with
  | nil =>
    intro high hlen _ _ hinv j hj
    exact (hinv j hj).2 (by simp)
  | cons k rest ih =>
    intro high hlen hnd hmem hinv j hj
    rw [List.foldl_cons]
    have hknd : k ∉ rest := (List.nodup_cons.mp hnd).1
    have hnd' : rest.Nodup := (List.nodup_cons.mp hnd).2
    have hkn : k < numChunks high0.length c := hmem k (List.mem_cons_self k rest)
    have hkc : k * c < high0.length := mul_lt_of_lt_numChunks k high0.length c hc hkn
    have hchunk : (high.drop (k * c)).take c = (high0.drop (k * c)).take c := by
      apply List.ext_getElem?
      intro jj
      by_cases hjj : jj < min c (high.length - k * c)
      · rw [List.getElem?_take_of_lt (by omega), List.getElem?_drop,
          List.getElem?_take_of_lt (by omega), List.getElem?_drop]
        have hin : (k * c + jj) / c = k :=
          (div_eq_iff_range _ c k hc).mpr ⟨by omega, by omega⟩
        exact (hinv (k * c + jj) (by omega)).1
          (by rw [hin]; exact List.mem_cons_self k rest)
      · rw [List.getElem?_eq_none
            (by simp only [List.length_take, List.length_drop]; omega),
          List.getElem?_eq_none
            (by simp only [List.length_take, List.length_drop]; omega)]
    apply ih (applyChunk low c start high k) (by rw [applyChunk_length, hlen]) hnd'
      (fun k' hk' => hmem k' (List.mem_cons_of_mem _ hk')) ?_ j hj
    intro j' hj'
    constructor
    · intro hj'in
      have hne : j' / c ≠ k := fun h => hknd (h ▸ hj'in)
      rw [applyChunk_getElem?_out low c start high k j' hc (by omega) hne]
      exact (hinv j' hj').1 (List.mem_cons_of_mem _ hj'in)
    · intro hj'nin
      by_cases hke : j' / c = k
      · rw [applyChunk_getElem?_in low c start high k j' hc (by omega) hke, hchunk]
        exact (runChunks_chunk_value low c start hc high0 k j' hj' hke).symm
      · rw [applyChunk_getElem?_out low c start high k j' hc (by omega) hke]
        exact (hinv j' hj').2
          (fun hmem' => (List.mem_cons.mp hmem').elim (fun h => hke h)
            (fun h => hj'nin h))

/-- Any completion order that is a permutation of the window indices
gives the parallel sieve the same result as the chunked sieve. -/
theorem sieve_parallelWith_eq_chunks (max c : Nat) (order : List Nat) (h10 : 10 ≤ max)
    (hc : 1 ≤ c)
    (hperm : order.Perm (List.range (numChunks (max / 2 - ceilSqrt max / 2) c))) :
    sieve_parallelWith max c order = sieve_chunksWith max c := by
  have hser := sieve_serial_eq_oddPrimes (ceilSqrt max) (ceilSqrt_ge_four max h10)
  unfold sieve_parallelWith sieve_chunksWith
  rw [hser]
  dsimp only
  congr 2
  set B := resize (oddPrimes (ceilSqrt max)) (max / 2) with hB
  set T := List.take (ceilSqrt max / 2) B with hT
  set D := List.drop (ceilSqrt max / 2) B with hD
  have hDlen : D.length = max / 2 - ceilSqrt max / 2 := by
    rw [hD, List.length_drop, hB, resize_length]
  have hnd : order.Nodup := hperm.nodup_iff.mpr (List.nodup_range _)
  have hmem : ∀ k, k ∈ order → k < numChunks D.length c := by
    intro k hk
    rw [hDlen]
    exact List.mem_range.mp (hperm.mem_iff.mp hk)
  apply List.ext_getElem?
  intro j
  by_cases hj : j < D.length
  · apply foldl_applyChunk_getElem? T c (ceilSqrt max / 2) hc D order D rfl hnd hmem
      ?_ j hj
    intro j' hj'
    refine ⟨fun _ => rfl, fun hnin => ?_⟩
    exact absurd (hperm.mem_iff.mpr (List.mem_range.mpr
      (by rw [← hDlen]; exact div_lt_numChunks j' D.length c hc hj'))) hnin
  · rw [List.getElem?_eq_none (by rw [foldl_applyChunk_length]; omega),
      List.getElem?_eq_none (by rw [runChunks_length]; omega)]

theorem ceilSqrt_of_bounds (n s : Nat) (h1 : s * s ≤ n) (h2 : n < (s + 1) * (s + 1)) :
    ceilSqrt n = if s * s = n then s else s + 1 := by
  unfold ceilSqrt
  have hs : s = Nat.sqrt n := Nat.eq_sqrt.mpr ⟨h1, h2⟩
  rw [← hs]

theorem ceilSqrt_four : ceilSqrt 4 = 2 := by
  rw [ceilSqrt_of_bounds 4 2 (by decide) (by decide)]
  decide

theorem ceilSqrt_ten : ceilSqrt 10 = 4 := by
  rw [ceilSqrt_of_bounds 10 3 (by decide) (by decide)]
  decide

/-- The chunk loop only ever lowers flags: a set flag in the result was
set in the input window. -/
theorem updateLoopAux_mono (low : List Bool) (base maxv : Nat) :
    ∀ (fuel : Nat) (chunk : List Bool) (i j : Nat),
      (updateLoopAux low base maxv fuel chunk i)[j]? = some true →
      chunk[j]? = some true := by
  intro fuel
  induction fuel with
  | zero => intro chunk i j h; exact h
  | succ fuel ih =>
    intro chunk i j h
    unfold updateLoopAux at h
    by_cases hi : i < low.length
    · rw [dif_pos hi] at h
      by_cases hli : low[i] = true
      · rw [if_pos hli] at h
        by_cases hbrk : maxv ≤ (2 * i + 1) * (2 * i + 1)
        · rwa [if_pos hbrk] at h
        · rw [if_neg hbrk] at h
          by_cases hcs : chunkStart base (2 * i + 1) < maxv
          · rw [if_pos hcs] at h
            have h2 := ih _ _ j h
            rw [clearStride_getElem? chunk _ _ (by omega) j] at h2
            split at h2
            · exact absurd h2 (by simp)
            · exact h2
          · rw [if_neg hcs] at h
            exact ih _ _ j h
      · rw [if_neg hli] at h
        exact ih _ _ j h
    · rwa [dif_neg hi] at h

/-- C1 (counterexample): at `max = 4` the claim fails as stated — the
serial sieve returns the two-flag buffer for 1 and 3, while the chunked
and parallel sieves compute `small_max = 2` and panic inside
`sieve_serial(2)` on the out-of-bounds read `sieve[1]`, so the three
strategies do not return identical sequences for every bound. -/
theorem strategies_differ_at_four :
    sieve_serial 4 = some [false, true] ∧ sieve_chunks 4 = none ∧
      sieve_parallel 4 [0] = none := by
  refine ⟨rfl, ?_, ?_⟩
  · unfold sieve_chunks sieve_chunksWith
    rw [ceilSqrt_four]
    rfl
  · unfold sieve_parallel sieve_parallelWith
    rw [ceilSqrt_four]
    rfl

/-- C1 (amended): for every `max ≥ 10` (so that the seed bound
`ceil (sqrt max)` is at least 4 and the seed sieve cannot panic), the
three strategies — serial, chunked, and parallel under any completion
order of the window jobs — return element-wise identical boolean
sequences of length `max / 2`, namely the primality table of the odd
integers below `max`. -/
theorem strategies_agree_from_ten (max : Nat) (order : List Nat) (h10 : 10 ≤ max)
    (hord : order.Perm (List.range (numChunks (max / 2 - ceilSqrt max / 2) CHUNK_SIZE))) :
    sieve_serial max = some (oddPrimes max) ∧
    sieve_chunks max = some (oddPrimes max) ∧
    sieve_parallel max order = some (oddPrimes max) ∧
    (oddPrimes max).length = max / 2 := by
  have hc : (1 : Nat) ≤ CHUNK_SIZE := by decide
  refine ⟨sieve_serial_eq_oddPrimes max (by omega), ?_, ?_, oddPrimes_length max⟩
  · exact sieve_chunksWith_eq_oddPrimes max CHUNK_SIZE h10 hc
  · unfold sieve_parallel
    rw [sieve_parallelWith_eq_chunks max CHUNK_SIZE order h10 hc hord]
    exact sieve_chunksWith_eq_oddPrimes max CHUNK_SIZE h10 hc

theorem strategies_agree_from_ten_witness :
    10 ≤ 10 ∧
    [0].Perm (List.range (numChunks (10 / 2 - ceilSqrt 10 / 2) CHUNK_SIZE)) ∧
    (sieve_serial 10 = some (oddPrimes 10) ∧
      sieve_chunks 10 = some (oddPrimes 10) ∧
      sieve_parallel 10 [0] = some (oddPrimes 10) ∧
      (oddPrimes 10).length = 10 / 2) := by
  have hperm : [0].Perm (List.range (numChunks (10 / 2 - ceilSqrt 10 / 2) CHUNK_SIZE)) := by
    rw [ceilSqrt_ten]
    decide
  exact ⟨by decide, hperm, strategies_agree_from_ten 10 [0] (by decide) hperm⟩

/-- C2 (counterexample): the claim promises a buffer for every
`max ≥ 2`, but at `max = 2` the buffer has length 1 and the scan's first
read `sieve[1]` is out of bounds — the Rust code panics, modelled as
`none`. -/
theorem sieve_serial_two_panics : sieve_serial 2 = none := rfl

/-- C2 (amended): for every `max ≥ 4`, `sieve_serial max` returns a
buffer of length `max / 2` whose element 0 is `false` and whose element
`i` is `true` exactly when the odd integer `2*i+1` (which lies below
`max`) is prime. -/
theorem sieve_serial_primality_from_four (max : Nat) (h4 : 4 ≤ max) :
    ∃ l, sieve_serial max = some l ∧ l.length = max / 2 ∧ l[0]? = some false ∧
      (∀ j, j < max / 2 → (l[j]? = some true ↔ Nat.Prime (2 * j + 1))) := by
  refine ⟨oddPrimes max, sieve_serial_eq_oddPrimes max h4, oddPrimes_length max, ?_, ?_⟩
  · rw [oddPrimes_getElem? max 0 (by omega)]
    rw [decide_eq_false (by simpa using Nat.not_prime_one)]
  · intro j hj
    rw [oddPrimes_getElem? max j hj]
    constructor
    · intro h
      exact of_decide_eq_true (Option.some.inj h)
    · intro h
      rw [decide_eq_true h]

theorem sieve_serial_primality_from_four_witness :
    4 ≤ 4 ∧ ∃ l, sieve_serial 4 = some l ∧ l.length = 4 / 2 ∧ l[0]? = some false ∧
      (∀ j, j < 4 / 2 → (l[j]? = some true ↔ Nat.Prime (2 * j + 1))) :=
  ⟨by decide, sieve_serial_primality_from_four 4 (by decide)⟩

/-- C3 (counterexample): at `max = 3` the sieve does not return a
minimal well-defined result — the buffer has length 1 and the scan
panics on the out-of-bounds read `sieve[1]`. -/
theorem sieve_serial_three_panics : sieve_serial 3 = none := rfl

/-- C3 (amended): for every `max < 4` the sieve fails instead of
returning a degenerate buffer: for `max < 2` the buffer is empty and
`sieve[0] = false` panics, and for `max = 2, 3` the buffer has length 1
and the scan's read `sieve[1]` panics. -/
theorem sieve_serial_small_bounds_panic (max : Nat) (hmax : max < 4) :
    sieve_serial max = none :=
  sieve_serial_eq_none max hmax

theorem sieve_serial_small_bounds_panic_witness :
    1 < 4 ∧ sieve_serial 1 = none :=
  ⟨by decide, sieve_serial_small_bounds_panic 1 (by decide)⟩

/-- C4 (counterexample): at `max = 0` the scan never reaches a break —
the buffer is empty, and the write `sieve[0] = false` already panics, so
`sieve_serial` does not terminate without an error condition for every
`max`. -/
theorem sieve_serial_zero_panics : sieve_serial 0 = none := rfl

/-- C4 (amended): for every `max ≥ 4`, `sieve_serial max` terminates
normally: by Bertrand's postulate a prime `q` with `max ≤ q²` has its
flag inside the buffer and is never cleared, so the unbounded scan
reaches its break before the index runs past the buffer. -/
theorem sieve_serial_terminates_from_four (max : Nat) (h4 : 4 ≤ max) :
    ∃ l, sieve_serial max = some l :=
  ⟨oddPrimes max, sieve_serial_eq_oddPrimes max h4⟩

theorem sieve_serial_terminates_from_four_witness :
    4 ≤ 5 ∧ ∃ l, sieve_serial 5 = some l :=
  ⟨by decide, sieve_serial_terminates_from_four 5 (by decide)⟩

/-- C5: one step of the `sieve_serial` scan at index `i`.  A cleared flag
is skipped; a set flag with `p² ≥ max` stops the scan returning the
buffer; otherwise the pass clears exactly the flags at indices
`p²/2, p²/2 + p, p²/2 + 2p, …` inside the buffer — which carry precisely
the odd multiples of `p` from `p²` on — leaves every other flag
unchanged, and the scan moves to index `i + 1`. -/
theorem sieve_serial_step_behavior (max fuel i : Nat) (s : List Bool)
    (hi : i < s.length) :
    (s[i]? = some false →
      sieveLoopAux max (fuel + 1) s i = sieveLoopAux max fuel s (i + 1)) ∧
    (s[i]? = some true → max ≤ (2 * i + 1) * (2 * i + 1) →
      sieveLoopAux max (fuel + 1) s i = some s) ∧
    (s[i]? = some true → (2 * i + 1) * (2 * i + 1) < max →
      (sieveLoopAux max (fuel + 1) s i =
        sieveLoopAux max fuel
          (clearStride s ((2 * i + 1) * (2 * i + 1) / 2) (2 * i + 1)) (i + 1)) ∧
      (∀ j, (clearStride s ((2 * i + 1) * (2 * i + 1) / 2) (2 * i + 1))[j]? =
        if (2 * i + 1) * (2 * i + 1) / 2 ≤ j ∧
            (j - (2 * i + 1) * (2 * i + 1) / 2) % (2 * i + 1) = 0 ∧ j < s.length
        then some false else s[j]?) ∧
      (∀ j, ((2 * i + 1) * (2 * i + 1) / 2 ≤ j ∧
          (j - (2 * i + 1) * (2 * i + 1) / 2) % (2 * i + 1) = 0) ↔
        ((2 * i + 1) ∣ (2 * j + 1) ∧ (2 * i + 1) * (2 * i + 1) ≤ 2 * j + 1))) := by
  refine ⟨?_, ?_, ?_⟩
  · intro hf
    rw [List.getElem?_eq_getElem hi] at hf
    conv_lhs => unfold sieveLoopAux
    rw [dif_pos hi, if_neg (by simp [Option.some.inj hf])]
  · intro ht hbrk
    rw [List.getElem?_eq_getElem hi] at ht
    conv_lhs => unfold sieveLoopAux
    rw [dif_pos hi, if_pos (Option.some.inj ht), if_pos hbrk]
  · intro ht hlt
    refine ⟨?_, fun j => clearStride_getElem? s _ _ (by omega) j,
      fun j => serial_hit_iff i j⟩
    rw [List.getElem?_eq_getElem hi] at ht
    conv_lhs => unfold sieveLoopAux
    rw [dif_pos hi, if_pos (Option.some.inj ht), if_neg (by omega)]

theorem sieve_serial_step_behavior_witness :
    sieveLoopAux 12 6 [false, true, true, true, true, true] 1 =
      sieveLoopAux 12 5
        (clearStride [false, true, true, true, true, true]
          ((2 * 1 + 1) * (2 * 1 + 1) / 2) (2 * 1 + 1)) 2 :=
  ((sieve_serial_step_behavior 12 5 1 [false, true, true, true, true, true]
    (by decide)).2.2 (by decide) (by decide)).1

/-- C6: the starting value `pm` computed by `update_chunk` for an odd
`p` against an odd window base.  When `p² < base`, the expression
`((base + p - 1) / p | 1) * p` is exactly the first odd multiple of `p`
at or after `base` (a multiple of `p`, odd, at least `base`, and below
every other such value); when `p² ≥ base` the starting value is `p²`
itself. -/
theorem update_chunk_start_value (base p : Nat) (hb : base % 2 = 1)
    (hp : p % 2 = 1) :
    (p * p < base →
      chunkStart base p = oddMultStart base p ∧
      p ∣ oddMultStart base p ∧
      oddMultStart base p % 2 = 1 ∧
      base ≤ oddMultStart base p ∧
      (∀ m, p ∣ m → m % 2 = 1 → base ≤ m → oddMultStart base p ≤ m)) ∧
    (base ≤ p * p → chunkStart base p = p * p) := by
  constructor
  · intro hlt
    exact ⟨by unfold chunkStart; rw [if_pos hlt], oddMultStart_dvd base p,
      oddMultStart_odd base p hp, oddMultStart_ge base p (by omega),
      fun m h1 h2 h3 => oddMultStart_least base p m hp h1 h2 h3⟩
  · intro hge
    unfold chunkStart
    rw [if_neg (by omega)]

theorem update_chunk_start_value_witness :
    101 % 2 = 1 ∧ 3 % 2 = 1 ∧ chunkStart 101 3 = oddMultStart 101 3 ∧
      oddMultStart 101 3 = 105 ∧ chunkStart 103 11 = 11 * 11 := by
  have h1 := (update_chunk_start_value 101 3 (by decide) (by decide)).1 (by decide)
  have h2 := (update_chunk_start_value 103 11 (by decide) (by decide)).2 (by decide)
  exact ⟨by decide, by decide, h1.1, by decide, h2⟩

/-- C7: frame conditions of `update_chunk`.  It returns a window of
unchanged length (in the embedding it can only write the window it was
given — the `low` buffer is read-only and no index outside the window is
touched); its prime loop stops as soon as a set entry with
`p² ≥ base + 2 * window length` is reached, returning the window as it
stands; and every mutation lowers a flag from `true` to `false`, never
the other way. -/
theorem update_chunk_frame (low chunk : List Bool) (base : Nat) :
    (update_chunk low chunk base).length = chunk.length ∧
    (∀ (fuel : Nat) (ch : List Bool) (i : Nat), i < low.length →
      low[i]? = some true → base + ch.length * 2 ≤ (2 * i + 1) * (2 * i + 1) →
      updateLoopAux low base (base + ch.length * 2) fuel ch i = ch) ∧
    (∀ j : Nat, (update_chunk low chunk base)[j]? = some true →
      chunk[j]? = some true) := by
  refine ⟨update_chunk_length low chunk base, ?_,
    fun j h => updateLoopAux_mono low base (base + chunk.length * 2) low.length
      chunk 0 j h⟩
  intro fuel ch i hi hli hbrk
  cases fuel with
  | zero => rfl
  | succ fuel =>
    rw [List.getElem?_eq_getElem hi] at hli
    conv_lhs => unfold updateLoopAux
    rw [dif_pos hi, if_pos (Option.some.inj hli), if_pos hbrk]

theorem update_chunk_frame_witness :
    (update_chunk [false, true] [true, true, true] 5).length =
      ([true, true, true] : List Bool).length ∧
    updateLoopAux [false, true] 5 7 2 [true] 1 = [true] ∧
    update_chunk [false, true] [true, true, true] 5 = [true, true, false] := by
  have h := update_chunk_frame [false, true] [true, true, true] 5
  exact ⟨h.1, h.2.1 2 [true] 1 (by decide) (by decide) (by decide), rfl⟩

/-- C8: the chunked sieve's result does not depend on the window size:
any two positive window sizes give identical results for every bound
(either the same completed table, or the same seed panic when the bound
is below 10). -/
theorem sieve_chunks_window_size_independent (max c₁ c₂ : Nat) (h1 : 1 ≤ c₁)
    (h2 : 1 ≤ c₂) : sieve_chunksWith max c₁ = sieve_chunksWith max c₂ := by
  rcases Nat.lt_or_ge max 10 with hlt | hge
  · rw [sieve_chunksWith_eq_none max c₁ (by omega),
      sieve_chunksWith_eq_none max c₂ (by omega)]
  · rw [sieve_chunksWith_eq_oddPrimes max c₁ hge h1,
      sieve_chunksWith_eq_oddPrimes max c₂ hge h2]

theorem sieve_chunks_window_size_independent_witness :
    1 ≤ 1 ∧ 1 ≤ 7 ∧ sieve_chunksWith 30 1 = sieve_chunksWith 30 7 :=
  ⟨by decide, by decide,
    sieve_chunks_window_size_independent 30 1 7 (by decide) (by decide)⟩

/-- C10: the two `clear_stride` call sites are always in bounds.  In
`sieve_serial`, the guard `p*p < max` forces the start index `p*p/2`
below the buffer length `max/2`; in `update_chunk`, the computed start
value `pm` never lies below the (odd) window base (so `pm - base` cannot
underflow) and the guard `pm < base + 2*L` forces the start index
`(pm - base)/2` below the window length `L`. -/
theorem clear_stride_calls_in_bounds (i max base L : Nat) :
    ((2 * i + 1) * (2 * i + 1) < max → (2 * i + 1) * (2 * i + 1) / 2 < max / 2) ∧
    (base ≤ chunkStart base (2 * i + 1)) ∧
    (chunkStart base (2 * i + 1) < base + 2 * L →
      (chunkStart base (2 * i + 1) - base) / 2 < L) := by
  have hid : (2 * i + 1) * (2 * i + 1) = 2 * (2 * i * i + 2 * i) + 1 := by ring
  have hge := chunkStart_ge_base base (2 * i + 1) (by omega)
  exact ⟨fun h => by omega, hge, fun h => by omega⟩

theorem clear_stride_calls_in_bounds_witness :
    (2 * 2 + 1) * (2 * 2 + 1) / 2 < 30 / 2 ∧ 7 ≤ chunkStart 7 (2 * 2 + 1) ∧
      (chunkStart 7 (2 * 2 + 1) - 7) / 2 < 12 :=
  ⟨(clear_stride_calls_in_bounds 2 30 7 12).1 (by decide),
   (clear_stride_calls_in_bounds 2 30 7 12).2.1,
   (clear_stride_calls_in_bounds 2 30 7 12).2.2 (by decide)⟩
